import Mathlib

/-!
# The `lsh` shell of `main.c`: embedding and verified properties

The C program is embedded as state-passing functions over a `World`.

* A Lean `String` stands for the contents of a C string (the characters that
  precede its terminating NUL); a `Char` stands for one C `char`.
* A memory block is a list of cells whose length is the capacity of the block.
  A store outside the block is undefined behaviour (`Halt.fault`).  Fresh cells
  hold an indeterminate value (`OS.junk` for characters, `Slot.wild` for
  pointers).
* The `int` counters `bufsize` and `position` of `lsh_read_line` are natural
  numbers that must stay within `INT_MAX`: an addition that passes `INT_MAX`
  is a signed overflow, hence undefined behaviour (`Halt.fault`).  A line that
  `lsh_read_line` hands over has fewer than `INT_MAX` characters, so the
  counters of `lsh_split_line` and `lsh_echo`, which count its tokens, stay
  below `INT_MAX` and are plain natural numbers.
* Regular files live in `World.files` under the name `OS.realpath` gives to a
  path, so that several spellings of a path name one file; whether a file can
  be opened for writing or unlinked is decided by the environment `OS`.
  Directories, the working directory and child processes are not part of the
  model: the calls that concern them are logged in `World.calls` and answered
  by `OS`.  `OS` also decides whether an allocation succeeds.
* The embedding follows one process; `OS.fork` says on which side of a `fork`
  that process continues.
-/

namespace Lsh

/-! ## Data model -/

/-- One byte of file data. -/
abbrev Byte := Fin 256

/-- The terminator of a C string. -/
def NUL : Char := Char.ofNat 0

/-- The `EOF` value of `<stdio.h>`. -/
def EOF : Int := -1

def EXIT_SUCCESS : Int := 0

def EXIT_FAILURE : Int := 1

/-- The `INT_MAX` of `<limits.h>` for a 32-bit `int`. -/
def INT_MAX : Nat := 2147483647

/-- A cell of a `char **` block: an indeterminate pointer, `NULL`, or a pointer
to a string. -/
inductive Slot where
  | wild
  | null
  | tok (s : String)
  deriving DecidableEq, Repr

/-- An open `FILE`: the name under which the file it is attached to lives in
`World.files`, the offset of the next character, and whether it was opened for
writing. -/
structure Stream where
  path : String
  pos : Nat
  writing : Bool
  deriving DecidableEq, Repr

/-- The status a `waitpid` call reports for a child. -/
inductive WStatus where
  | exited
  | signaled
  | stopped
  deriving DecidableEq, Repr

/-- The operating-system calls the shell issues, with their arguments
(`none` is a `NULL` pointer). -/
inductive Call where
  | chdir (path : Option String)
  | mkdir (path : Option String) (mode : Nat)
  | creat (path : Option String) (mode : Nat)
  | remove (path : Option String)
  | rmdir (path : Option String)
  | getcwd (size : Nat)
  | opendir (path : Option String)
  | closedir
  | system (cmd : String)
  | fork
  | execvp (file : Option String) (argv : List Slot)
  | waitpid (pid : Int)
  deriving DecidableEq, Repr

/-- The state the shell process acts on. -/
structure World where
  /-- the unread part of standard input -/
  input : List Char
  /-- the text written to standard output -/
  out : String
  /-- the text written to the error stream -/
  err : String
  /-- the regular files, by the name `OS.realpath` gives to their paths -/
  files : String → Option (List Byte)
  /-- the table of `FILE` objects; a handle is an index, `none` a closed one -/
  streams : List (Option Stream)
  /-- the operating-system calls issued so far, oldest first -/
  calls : List Call

/-- The environment: the answers of the operating system that the model does
not compute itself.  Every answer may depend on the whole `World`, hence on
the history of calls. -/
structure OS where
  /-- whether an allocation request of that many bytes succeeds -/
  alloc : Nat → World → Bool
  /-- the content of an uninitialised `char` -/
  junk : Char
  /-- the message for the current `errno` -/
  strerror : World → String
  /-- whether `chdir` succeeds -/
  chdir : String → World → Bool
  /-- whether `mkdir` succeeds -/
  mkdir : String → Nat → World → Bool
  /-- the descriptor `creat` returns, `none` when it fails -/
  creat : String → Nat → World → Option Nat
  /-- whether `rmdir` succeeds -/
  rmdir : String → World → Bool
  /-- the name of the file a path leads to, given the calls issued so far
  (among them every `chdir`): two paths name one file exactly when they have
  the same name here -/
  realpath : List Call → String → String
  /-- whether the file at a path can be opened for writing (created or
  truncated), given the calls issued so far -/
  writable : List Call → String → Bool
  /-- whether the file at a path can be unlinked, given the calls issued so
  far -/
  unlink : List Call → String → Bool
  /-- the working directory -/
  getcwd : World → String
  /-- the entries `readdir` delivers, `none` when `opendir` fails -/
  opendir : String → World → Option (List String)
  /-- the return value of `fork` in the process that is followed -/
  fork : World → Int
  /-- whether `execvp` replaces the process image -/
  execvp : Option String → List Slot → World → Bool
  /-- the reports successive `waitpid` calls deliver for a child; when they
  run out the child never terminates and `waitpid` blocks for ever -/
  waitpid : Int → World → List WStatus

/-- Why a computation does not return to its caller. -/
inductive Halt where
  /-- the process called `exit` with this status -/
  | exit (status : Int)
  /-- undefined behaviour was reached (a crash) -/
  | fault
  /-- the process image was replaced by `execvp` -/
  | exec
  /-- the process blocks for ever -/
  | hang
  deriving DecidableEq, Repr

/-- The outcome of running a piece of the program. -/
inductive Res (α : Type) where
  | ret (a : α) (w : World)
  | stop (h : Halt) (w : World)

/-- The final world of an outcome. -/
def Res.world {α : Type} : Res α → World
  | .ret _ w => w
  | .stop _ w => w

/-- The returned value, when the computation returns. -/
def Res.value {α : Type} : Res α → Option α
  | .ret a _ => some a
  | .stop _ _ => none

/-- The reason for not returning, when the computation does not return. -/
def Res.halt {α : Type} : Res α → Option Halt
  | .ret _ _ => none
  | .stop h _ => some h

/-- A piece of the program: a function from the world to an outcome. -/
def Sh (α : Type) : Type := World → Res α

def Sh.pure {α : Type} (a : α) : Sh α := fun w => .ret a w

def Sh.bind {α β : Type} (m : Sh α) (f : α → Sh β) : Sh β := fun w =>
  match m w with
  | .ret a w1 => f a w1
  | .stop h w1 => .stop h w1

instance : Monad Sh where
  pure := Sh.pure
  bind := Sh.bind

/-- Stop with the given reason. -/
def halt {α : Type} (h : Halt) : Sh α := fun w => .stop h w

/-- Undefined behaviour. -/
def fault {α : Type} : Sh α := halt .fault

/-- The `exit` of `<stdlib.h>`. -/
def exit {α : Type} (status : Int) : Sh α := halt (.exit status)

/-- Record an operating-system call. -/
def log (c : Call) : Sh Unit := fun w => .ret () { w with calls := w.calls ++ [c] }

/-! ## The C library, as far as the program uses it -/

/-- The `printf` of an already formatted text. -/
def printf (s : String) : Sh Unit := fun w => .ret () { w with out := w.out ++ s }

/-- The `fprintf(stderr, ...)` of an already formatted text. -/
def eprintf (s : String) : Sh Unit := fun w => .ret () { w with err := w.err ++ s }

/-- The `perror` of `<stdio.h>`: the tag, a colon and the message for `errno`. -/
def perror (os : OS) (s : String) : Sh Unit := fun w =>
  .ret () { w with err := w.err ++ s ++ ": " ++ os.strerror w ++ "\n" }

/-- The `getchar` of `<stdio.h>`. -/
def getchar : Sh Int := fun w =>
  match w.input with
  | [] => .ret EOF w
  | c :: cs => .ret (c.toNat : Int) { w with input := cs }

/-- The comparison of `strcmp`, character by character: zero for equal
contents, otherwise the sign of the difference at the first position where
they differ (the terminator being less than any character). -/
def strcmp_chars : List Char → List Char → Int
  | [], [] => 0
  | [], _ :: _ => -1
  | _ :: _, [] => 1
  | a :: as, b :: bs =>
    if a = b then strcmp_chars as bs else if a.toNat < b.toNat then -1 else 1

/-- The `strcmp` of `<string.h>` on string contents. -/
def strcmp (a b : String) : Int := strcmp_chars a.data b.data

/-- The value `(unsigned char) c`. -/
def toByte (c : Int) : Byte := ⟨(c % 256).toNat, by omega⟩

/-- Replace the file at `path`. -/
def setFile (files : String → Option (List Byte)) (path : String)
    (data : Option (List Byte)) : String → Option (List Byte) :=
  fun q => if q = path then data else files q

/-- Replace the stream of handle `h`. -/
def setStream (w : World) (h : Nat) (s : Option Stream) : World :=
  { w with streams := w.streams.set h s }

/-- The `fopen` of `<stdio.h>` for the modes `"r"` and `"w"`.  A `NULL` path
fails (`EFAULT`); reading needs an existing file; writing fails when the file
cannot be opened for writing, and otherwise creates the file or truncates it. -/
def fopen (os : OS) (path : Option String) (mode : String) : Sh (Option Nat) := fun w =>
  match path with
  | none => .ret none w
  | some p =>
    if mode = "r" then
      match w.files (os.realpath w.calls p) with
      | none => .ret none w
      | some _ =>
        .ret (some w.streams.length)
          { w with streams := w.streams ++ [some ⟨os.realpath w.calls p, 0, false⟩] }
    else if os.writable w.calls p then
      .ret (some w.streams.length)
        { w with files := setFile w.files (os.realpath w.calls p) (some []),
                 streams := w.streams ++ [some ⟨os.realpath w.calls p, 0, true⟩] }
    else .ret none w

/-- The `fgetc` of `<stdio.h>`: the next byte of the file as a non-negative
`int`, or `EOF`.  A `NULL` or closed stream is undefined behaviour. -/
def fgetc (fp : Option Nat) : Sh Int := fun w =>
  match fp with
  | none => .stop .fault w
  | some h =>
    match w.streams.get? h with
    | some (some s) =>
      if s.writing then .ret EOF w
      else
        match w.files s.path with
        | none => .ret EOF w
        | some data =>
          match data.get? s.pos with
          | none => .ret EOF w
          | some b => .ret (b.val : Int) (setStream w h (some { s with pos := s.pos + 1 }))
    | _ => .stop .fault w

/-- The `fputc` of `<stdio.h>`: write `(unsigned char) c` at the end of the
file.  A `NULL` or closed stream is undefined behaviour. -/
def fputc (c : Int) (fp : Option Nat) : Sh Int := fun w =>
  match fp with
  | none => .stop .fault w
  | some h =>
    match w.streams.get? h with
    | some (some s) =>
      if s.writing then
        match w.files s.path with
        | none => .ret ((toByte c).val : Int) (setStream w h (some { s with pos := s.pos + 1 }))
        | some data =>
          .ret ((toByte c).val : Int)
            { setStream w h (some { s with pos := s.pos + 1 }) with
              files := setFile w.files s.path (some (data ++ [toByte c])) }
      else .ret EOF w
    | _ => .stop .fault w

/-- The `fclose` of `<stdio.h>`.  A `NULL` or closed stream is undefined
behaviour. -/
def fclose (fp : Option Nat) : Sh Int := fun w =>
  match fp with
  | none => .stop .fault w
  | some h =>
    match w.streams.get? h with
    | some (some _) => .ret 0 (setStream w h none)
    | _ => .stop .fault w

/-- The `remove` of `<stdio.h>`: unlink a regular file, when the environment
allows it; anything that is no regular file is handed to `rmdir`.  A `NULL`
path fails (`EFAULT`). -/
def remove (os : OS) (path : Option String) : Sh Int := fun w =>
  let w1 : World := { w with calls := w.calls ++ [Call.remove path] }
  match path with
  | none => .ret (-1) w1
  | some p =>
    match w.files (os.realpath w.calls p) with
    | some _ =>
      if os.unlink w.calls p then
        .ret 0 { w1 with files := setFile w.files (os.realpath w.calls p) none }
      else .ret (-1) w1
    | none => .ret (if os.rmdir p w1 then 0 else -1) w1

/-- The `rmdir` of `<unistd.h>`. -/
def rmdir (os : OS) (path : Option String) : Sh Int := fun w =>
  let w1 : World := { w with calls := w.calls ++ [Call.rmdir path] }
  match path with
  | none => .ret (-1) w1
  | some p => .ret (if os.rmdir p w1 then 0 else -1) w1

/-- The `creat` of `<fcntl.h>`: on success the file exists and is empty and a
non-negative descriptor is returned; on failure `-1`. -/
def creat (os : OS) (path : Option String) (mode : Nat) : Sh Int := fun w =>
  let w1 : World := { w with calls := w.calls ++ [Call.creat path mode] }
  match path with
  | none => .ret (-1) w1
  | some p =>
    match os.creat p mode w1 with
    | none => .ret (-1) w1
    | some fd =>
      .ret (fd : Int) { w1 with files := setFile w.files (os.realpath w.calls p) (some []) }

/-- The `mkdir` of `<sys/stat.h>`. -/
def mkdir (os : OS) (path : Option String) (mode : Nat) : Sh Int := fun w =>
  let w1 : World := { w with calls := w.calls ++ [Call.mkdir path mode] }
  match path with
  | none => .ret (-1) w1
  | some p => .ret (if os.mkdir p mode w1 then 0 else -1) w1

/-- The `chdir` of `<unistd.h>`. -/
def chdir (os : OS) (path : Option String) : Sh Int := fun w =>
  let w1 : World := { w with calls := w.calls ++ [Call.chdir path] }
  match path with
  | none => .ret (-1) w1
  | some p => .ret (if os.chdir p w1 then 0 else -1) w1

/-- The `getcwd` of `<unistd.h>` into a buffer of `size` characters: the
working directory when it fits with its terminator, else `NULL`. -/
def getcwd (os : OS) (size : Nat) : Sh (Option String) := fun w =>
  let w1 : World := { w with calls := w.calls ++ [Call.getcwd size] }
  if (os.getcwd w1).length < size then .ret (some (os.getcwd w1)) w1 else .ret none w1

/-- The `opendir` of `<dirent.h>`: the entries a sequence of `readdir` calls
will deliver, or `NULL`. -/
def opendir (os : OS) (path : Option String) : Sh (Option (List String)) := fun w =>
  let w1 : World := { w with calls := w.calls ++ [Call.opendir path] }
  match path with
  | none => .ret none w1
  | some p => .ret (os.opendir p w1) w1

/-- The `system` of `<stdlib.h>`; what the command does is outside the model. -/
def system (cmd : String) : Sh Int := fun w =>
  .ret 0 { w with calls := w.calls ++ [Call.system cmd] }

/-- Read `args[i]`.  Reading an indeterminate cell or past the block is
undefined behaviour. -/
def argAt (args : List Slot) (i : Nat) : Sh (Option String) := fun w =>
  match args.get? i with
  | some (.tok s) => .ret (some s) w
  | some .null => .ret none w
  | _ => .stop .fault w

/-- A store `block[i] = x`; `none` when `i` is outside the block. -/
def store {α : Type} (block : List α) (i : Nat) (x : α) : Option (List α) :=
  if i < block.length then some (block.set i x) else none

/-- The `malloc` of `cells` cells of `width` bytes each: a block of
indeterminate cells, or `NULL`. -/
def malloc {α : Type} (os : OS) (junk : α) (cells width : Nat) : Sh (Option (List α)) :=
  fun w => if os.alloc (cells * width) w then .ret (some (List.replicate cells junk)) w
    else .ret none w

/-- The `realloc` of a block to `cells` cells of `width` bytes each: the old
cells are kept, new ones are indeterminate; `NULL` on failure. -/
def realloc {α : Type} (os : OS) (junk : α) (block : List α) (cells width : Nat) :
    Sh (Option (List α)) :=
  fun w => if os.alloc (cells * width) w then
      .ret (some (block.take cells ++ List.replicate (cells - block.length) junk)) w
    else .ret none w

/-! ## The builtin commands (`main.c`, lines 36-245) -/

/-- List of builtin commands. -/
def builtin_str : List String :=
  ["cd", "help", "exit", "pwd", "echo", "ls", "mkdir", "touch", "rm", "rmdir", "clear",
   "cp", "mv"]

def lsh_num_builtins : Nat := builtin_str.length

/-- The number of bytes of the file behind `fp` that are still unread. -/
def unread (fp : Option Nat) (w : World) : Nat :=
  match fp with
  | none => 0
  | some h =>
    match w.streams.get? h with
    | some (some s) =>
      match w.files s.path with
      | some data => data.length - s.pos
      | none => 0
    | _ => 0

/-- The loop `while ((c = fgetc(cpFrom)) != EOF) fputc(c, cpTo);` of `lsh_cp`
and `lsh_mv`, for at most the given number of tests of its condition. -/
def copy_loop (cpFrom cpTo : Option Nat) : Nat → Sh Unit
  | 0 => halt .hang
  | n + 1 => do
    let c ← fgetc cpFrom
    if c ≠ EOF then do
      let _ ← fputc c cpTo
      copy_loop cpFrom cpTo n
    else pure ()

/-- The copy loop, with one test of the condition for each unread byte and one
for the end of the file. -/
def copy (cpFrom cpTo : Option Nat) : Sh Unit := fun w =>
  copy_loop cpFrom cpTo (unread cpFrom w + 1) w

def lsh_mv (os : OS) (args : List Slot) : Sh Int := do
  let a1 ← argAt args 1
  let cpFrom ← fopen os a1 "r"
  let a2 ← argAt args 2
  let cpTo ← fopen os a2 "w"
  copy cpFrom cpTo
  let _ ← fclose cpFrom
  let _ ← remove os a1
  let _ ← fclose cpTo
  pure 1

def lsh_cp (os : OS) (args : List Slot) : Sh Int := do
  let a1 ← argAt args 1
  let cpFrom ← fopen os a1 "r"
  let a2 ← argAt args 2
  let cpTo ← fopen os a2 "w"
  copy cpFrom cpTo
  let _ ← fclose cpFrom
  let _ ← fclose cpTo
  pure 1

def lsh_clear : Sh Int := do
  let _ ← system "clear"
  pure 1

def lsh_rmdir (os : OS) (args : List Slot) : Sh Int := do
  let a1 ← argAt args 1
  if a1 = none then
    eprintf "lsh_rmdir: expected argument to rmdir\n"
  let r ← rmdir os a1
  if r = 0 then
    printf "Directory deleted successfully\n"
  else
    printf "Error: unable to delete\n"
  pure 1

def lsh_rm (os : OS) (args : List Slot) : Sh Int := do
  let a1 ← argAt args 1
  if a1 = none then
    eprintf "lsh_rm: expected argument to rm\n"
  let r ← remove os a1
  if r = 0 then
    printf "File deleted successfully\n"
  else
    printf "Error: unable to delete\n"
  pure 1

def lsh_touch (os : OS) (args : List Slot) : Sh Int := do
  let a1 ← argAt args 1
  if a1 = none then
    eprintf "lsh_touch: expected argument to touch\n"
  else
    let r ← creat os a1 0o755
    if r ≠ 0 then
      perror os "lsh"
  pure 1

/-- The working directory is read into `char current[1024]`; when `getcwd`
fails the array is indeterminate and printing it is undefined behaviour. -/
def lsh_pwd (os : OS) : Sh Int := do
  let current ← getcwd os 1024
  match current with
  | some s => printf ("Current directory: " ++ s ++ "\n")
  | none => fault
  pure 1

/-- The loop `while (args[i] != NULL) { printf("%s ", args[i]); i++; }` of
`lsh_echo`, for at most the given number of tests of its condition. -/
def echo_loop (args : List Slot) : Nat → Nat → Sh Unit
  | 0, _ => halt .hang
  | n + 1, i => do
    let a ← argAt args i
    match a with
    | some s =>
      printf (s ++ " ")
      echo_loop args n (i + 1)
    | none => pure ()

/-- Every test of the loop condition reads one more cell of the block, so the
number of cells plus one bounds the number of tests. -/
def lsh_echo (args : List Slot) : Sh Int := do
  echo_loop args (args.length + 1) 1
  printf "\n"
  pure 1

/-- The loop `while (f = readdir(d))` of `lsh_ls` over the entries of the
directory. -/
def ls_loop : List String → Sh Unit
  | [] => pure ()
  | f :: rest => do
    if f = "." ∨ f = ".." then
      ls_loop rest
    else
      printf (f ++ "\n")
      ls_loop rest

def lsh_ls (os : OS) (args : List Slot) : Sh Int := do
  let a1 ← argAt args 1
  let d ← if a1 = none then opendir os (some ".") else opendir os a1
  match d with
  | some entries =>
    ls_loop entries
    log Call.closedir
  | none => perror os "Can't open directory!"
  pure 1

def lsh_mkdir (os : OS) (args : List Slot) : Sh Int := do
  let a1 ← argAt args 1
  if a1 = none then
    eprintf "lsh_mkdir: expected argument to mkdir \n"
  else
    let r ← mkdir os a1 0o755
    if r ≠ 0 then
      perror os "lsh"
  pure 1

def lsh_cd (os : OS) (args : List Slot) : Sh Int := do
  let a1 ← argAt args 1
  if a1 = none then
    eprintf "lsh: expected argument to \"cd\"\n"
  else
    let r ← chdir os a1
    if r ≠ 0 then
      perror os "lsh"
  pure 1

/-- The loop of `lsh_help` over the builtin names. -/
def help_loop : List String → Sh Unit
  | [] => pure ()
  | s :: rest => do
    printf ("  " ++ s ++ "\n")
    help_loop rest

def lsh_help (_args : List Slot) : Sh Int := do
  printf "Stephen Brennan's LSH\n"
  printf "Type program names and arguments, and hit enter.\n"
  printf "The following are built in:\n"
  help_loop builtin_str
  printf "Use the man command for information on other programs.\n"
  pure 1

def lsh_exit (_args : List Slot) : Sh Int := pure 0

/-- The functions that correspond to the names of `builtin_str`, in the same
order. -/
def builtin_func (os : OS) : List (List Slot → Sh Int) :=
  [lsh_cd os, lsh_help, lsh_exit, fun _ => lsh_pwd os, lsh_echo, lsh_ls os, lsh_mkdir os,
   lsh_touch os, lsh_rm os, lsh_rmdir os, fun _ => lsh_clear, lsh_cp os, lsh_mv os]

/-! ## Launching programs and dispatch (`main.c`, lines 247-298) -/

/-- The loop `do { waitpid(pid, &status, WUNTRACED); } while (!WIFEXITED(status) &&
!WIFSIGNALED(status));` over the reports the child will deliver. -/
def wait_loop (pid : Int) : List WStatus → Sh Unit
  | [] => halt .hang
  | status :: rest => do
    log (Call.waitpid pid)
    if status ≠ WStatus.exited ∧ status ≠ WStatus.signaled then
      wait_loop pid rest
    else pure ()

def lsh_launch (os : OS) (args : List Slot) : Sh Int := do
  log Call.fork
  let pid ← (fun w => Res.ret (os.fork w) w : Sh Int)
  if pid = 0 then
    -- Child process
    let a0 ← argAt args 0
    log (Call.execvp a0 args)
    let replaced ← (fun w => Res.ret (os.execvp a0 args w) w : Sh Bool)
    if replaced then
      halt .exec
    else
      perror os "lsh"
    exit EXIT_FAILURE
  else if pid < 0 then
    -- Error forking
    perror os "lsh"
  else
    -- Parent process
    let reports ← (fun w => Res.ret (os.waitpid pid w) w : Sh (List WStatus))
    wait_loop pid reports
  pure 1

/-- The loop `for (i = 0; i < lsh_num_builtins(); i++)` of `lsh_execute` over
the two parallel tables, followed by the call of `lsh_launch`. -/
def execute_loop (os : OS) (name : String) (args : List Slot) :
    List String → List (List Slot → Sh Int) → Sh Int
  | s :: names, f :: funcs =>
    if strcmp name s = 0 then f args else execute_loop os name args names funcs
  | _, _ => lsh_launch os args

def lsh_execute (os : OS) (args : List Slot) : Sh Int := do
  let a0 ← argAt args 0
  match a0 with
  | none =>
    -- An empty command was entered.
    pure 1
  | some name => execute_loop os name args builtin_str (builtin_func os)

/-! ## Reading a line (`main.c`, lines 300-341) -/

def LSH_RL_BUFSIZE : Nat := 1024

/-- The sum of two non-negative `int`s: a sum above `INT_MAX` is a signed
overflow, which is undefined behaviour. -/
def int_add (a b : Nat) : Sh Nat := fun w =>
  if a + b ≤ INT_MAX then .ret (a + b) w else .stop .fault w

/-- The loop `while (1)` of `lsh_read_line`, for at most the given number of
iterations; `position++` and `bufsize += LSH_RL_BUFSIZE` are `int`
additions. -/
def read_loop (os : OS) : Nat → Nat → Nat → List Char → Sh (List Char)
  | 0, _, _, _ => halt .hang
  | n + 1, bufsize, position, buffer => do
    -- Read a character
    let c ← getchar
    if c = EOF then
      exit EXIT_SUCCESS
    else if c = ('\n'.toNat : Int) then
      match store buffer position NUL with
      | none => fault
      | some buffer => pure buffer
    else
      match store buffer position (Char.ofNat c.toNat) with
      | none => fault
      | some buffer =>
        let position ← int_add position 1
        -- If we have exceeded the buffer, reallocate.
        if position ≥ bufsize then
          let bufsize ← int_add bufsize LSH_RL_BUFSIZE
          let r ← realloc os os.junk buffer bufsize 1
          match r with
          | none =>
            eprintf "lsh: allocation error\n"
            exit EXIT_FAILURE
          | some buffer => read_loop os n bufsize position buffer
        else
          read_loop os n bufsize position buffer

/-- The result is the whole block; the line is the C string at its start.
Every iteration but the last consumes a character of the input, so the length
of the input plus one bounds the number of iterations. -/
def lsh_read_line (os : OS) : Sh (List Char) := do
  let bufsize := LSH_RL_BUFSIZE
  let position := 0
  let r ← malloc os os.junk bufsize 1
  match r with
  | none =>
    eprintf "lsh: allocation error\n"
    exit EXIT_FAILURE
  | some buffer =>
    let fuel ← (fun w => Res.ret (w.input.length + 1) w : Sh Nat)
    read_loop os fuel bufsize position buffer

/-! ## Splitting a line (`main.c`, lines 343-381) -/

def LSH_TOK_BUFSIZE : Nat := 64

/-- The delimiters `" \t\r\n\a"`. -/
def LSH_TOK_DELIM : List Char := [' ', '\t', '\r', '\n', '\x07']

/-- The C string that starts a piece of memory: the characters before the
first NUL (or before the end of the piece). -/
def cstr (mem : List Char) : List Char := mem.takeWhile (fun c => c ≠ NUL)

/-- The `strtok` of `<string.h>`, with its saved position made explicit: from
the memory at the scan position, skip the delimiters; at the end of the string
there is no token; otherwise the token runs up to the next delimiter or the end
of the string, and the scan resumes behind that delimiter (at the end of the
string, if there is none). -/
def strtok (mem : List Char) (delim : List Char) : Option String × List Char :=
  let start := mem.dropWhile (fun c => c ≠ NUL ∧ c ∈ delim)
  match start with
  | [] => (none, [])
  | c :: _ =>
    if c = NUL then (none, start)
    else
      let token := start.takeWhile (fun c => c ≠ NUL ∧ c ∉ delim)
      match start.dropWhile (fun c => c ≠ NUL ∧ c ∉ delim) with
      | [] => (some (String.mk token), [])
      | d :: rest => if d = NUL then (some (String.mk token), d :: rest)
        else (some (String.mk token), rest)

/-- The loop `while (token != NULL)` of `lsh_split_line` and the store of the
final `NULL`, for at most the given number of tests of the loop condition.
`saved` is the position `strtok(NULL, ...)` resumes from; a pointer has 8
bytes.  `position` and `bufsize` count the tokens of a line that has fewer than
`INT_MAX` characters when it comes from `lsh_read_line`, so they are not
checked against `INT_MAX`. -/
def split_loop (os : OS) :
    Nat → Nat → Nat → List Slot → Option String → List Char → Sh (List Slot)
  | 0, _, _, _, _, _ => halt .hang
  | n + 1, bufsize, position, tokens, token, saved =>
    match token with
    | some t =>
      match store tokens position (Slot.tok t) with
      | none => fault
      | some tokens =>
        let position := position + 1
        if position ≥ bufsize then do
          let bufsize := bufsize + LSH_TOK_BUFSIZE
          let r ← realloc os Slot.wild tokens bufsize 8
          match r with
          | none =>
            eprintf "lsh: allocation error\n"
            exit EXIT_FAILURE
          | some tokens =>
            split_loop os n bufsize position tokens
              (strtok saved LSH_TOK_DELIM).1 (strtok saved LSH_TOK_DELIM).2
        else
          split_loop os n bufsize position tokens
            (strtok saved LSH_TOK_DELIM).1 (strtok saved LSH_TOK_DELIM).2
    | none =>
      match store tokens position Slot.null with
      | none => fault
      | some tokens => pure tokens

/-- The argument is the memory at `line`; the result is the whole block of
pointers.  Every token takes at least one character of the line, so the length
of the line plus one bounds the number of tests of the loop condition. -/
def lsh_split_line (os : OS) (line : List Char) : Sh (List Slot) := do
  let bufsize := LSH_TOK_BUFSIZE
  let position := 0
  let r ← malloc os Slot.wild bufsize 8
  match r with
  | none =>
    eprintf "lsh: allocation error\n"
    exit EXIT_FAILURE
  | some tokens =>
    split_loop os (line.length + 1) bufsize position tokens
      (strtok line LSH_TOK_DELIM).1 (strtok line LSH_TOK_DELIM).2

/-! ## The command loop (`main.c`, lines 383-419) -/

/-- The loop `do { ... } while (status);` of `lsh_loop`, for at most the given
number of iterations. -/
def loop_n (os : OS) : Nat → Sh Unit
  | 0 => halt .hang
  | n + 1 => do
    printf "> "
    let line ← lsh_read_line os
    let args ← lsh_split_line os line
    let status ← lsh_execute os args
    if status ≠ 0 then loop_n os n else pure ()

/-- Every iteration that returns consumes at least the newline of its line, so
the length of the input plus one bounds the number of iterations. -/
def lsh_loop (os : OS) : Sh Unit := fun w => loop_n os (w.input.length + 1) w

def main (os : OS) : Sh Int := do
  -- Run command loop.
  lsh_loop os
  pure EXIT_SUCCESS

/-- The tokens of an argument block: the strings before its first cell that is
not a string. -/
def argv : List Slot → List String
  | Slot.tok s :: rest => s :: argv rest
  | _ => []

/-! ## A sample environment -/

/-- A path without its leading `./` segments. -/
def strip_dot : List Char → List Char
  | '.' :: '/' :: rest => strip_dot rest
  | cs => cs

/-- An environment in which memory is never exhausted, `creat` returns the
first free descriptor, children terminate at once, and the working directory
is the only directory: a path names the file its leading `./` segments lead
to, and a file can be opened for writing exactly when no directory is left in
its path. -/
def unix : OS where
  alloc := fun _ _ => true
  junk := '?'
  strerror := fun _ => "Success"
  chdir := fun _ _ => true
  mkdir := fun _ _ _ => true
  creat := fun _ _ _ => some 3
  rmdir := fun _ _ => false
  realpath := fun _ p => String.mk (strip_dot p.data)
  writable := fun _ p => !(strip_dot p.data).contains '/'
  unlink := fun _ _ => true
  getcwd := fun _ => "/"
  opendir := fun _ _ => some [".", ".."]
  fork := fun _ => 100
  execvp := fun _ _ _ => true
  waitpid := fun _ _ => [WStatus.exited]

/-- A world with the given input, no files and nothing written yet. -/
def boot (input : String) : World :=
  { input := input.toList, out := "", err := "", files := fun _ => none, streams := [],
    calls := [] }

/-- The capacity of the line buffer once `len` characters are stored: the
least multiple of `LSH_RL_BUFSIZE` above `len`. -/
def line_capacity (len : Nat) : Nat := LSH_RL_BUFSIZE * (len / LSH_RL_BUFSIZE + 1)

/-- The line buffer in which the characters `written` are stored: they are
followed by the cells that are still indeterminate. -/
def line_buffer (os : OS) (written : List Char) : List Char :=
  written ++ List.replicate (line_capacity written.length - written.length) os.junk

/-- The specification of the tokenizer: the maximal non-empty runs of
characters that are not delimiters, in the C string at `mem`, in order. -/
def fields (mem : List Char) : List String :=
  ((List.splitOnP (fun c => decide (c ∈ LSH_TOK_DELIM)) (cstr mem)).filter
    (fun run => decide (run ≠ []))).map String.mk

/-- The capacity of the block of tokens once `n` tokens are stored: the least
multiple of `LSH_TOK_BUFSIZE` above `n`. -/
def token_capacity (n : Nat) : Nat := LSH_TOK_BUFSIZE * (n / LSH_TOK_BUFSIZE + 1)

/-- The block of tokens in which `stored` are stored: they are followed by the
cells that are still indeterminate. -/
def token_buffer (stored : List String) : List Slot :=
  stored.map Slot.tok ++ List.replicate (token_capacity stored.length - stored.length) Slot.wild

/-- Whenever the computation returns, it returns 1. -/
def ReturnsOne (m : Sh Int) : Prop := ∀ w a w1, m w = Res.ret a w1 → a = 1

/-! ## Running the monad -/

@[simp] theorem pure_run {α : Type} (a : α) (w : World) : (pure a : Sh α) w = Res.ret a w := rfl

@[simp] theorem bind_run {α β : Type} (m : Sh α) (f : α → Sh β) (w : World) :
    (m >>= f) w = match m w with
      | Res.ret a w1 => f a w1
      | Res.stop h w1 => Res.stop h w1 := rfl

theorem strcmp_chars_eq_zero : ∀ a b : List Char, strcmp_chars a b = 0 ↔ a = b
  | [], [] => by simp [strcmp_chars]
  | [], _ :: _ => by simp [strcmp_chars]
  | _ :: _, [] => by simp [strcmp_chars]
  | a :: as, b :: bs => by
    by_cases h : a = b
    · simp [strcmp_chars, h, strcmp_chars_eq_zero as bs]
    · by_cases h2 : a.toNat < b.toNat <;> simp [strcmp_chars, h, h2]

theorem strcmp_eq_zero (a b : String) : strcmp a b = 0 ↔ a = b := by
  rw [strcmp, strcmp_chars_eq_zero, String.ext_iff]

theorem builtin_table (os : OS) :
    List.zip builtin_str (builtin_func os) =
        [("cd", lsh_cd os), ("help", lsh_help), ("exit", lsh_exit), ("pwd", fun _ => lsh_pwd os),
         ("echo", lsh_echo), ("ls", lsh_ls os), ("mkdir", lsh_mkdir os), ("touch", lsh_touch os),
         ("rm", lsh_rm os), ("rmdir", lsh_rmdir os), ("clear", fun _ => lsh_clear),
         ("cp", lsh_cp os), ("mv", lsh_mv os)] := rfl

/-- C2: for every token list with `tokens[0]` present, `lsh_execute` is the
function paired with `tokens[0]` in the table, applied to the whole list, when
`tokens[0]` equals one of the builtin names, and `lsh_launch` applied to the
whole list otherwise.  The table pairs the 13 names with their own functions,
and the names are pairwise distinct. -/
theorem lsh_execute_dispatch (os : OS) (t : String) (rest : List Slot) :
    (∀ entry ∈ List.zip builtin_str (builtin_func os), t = entry.1 →
      lsh_execute os (Slot.tok t :: rest) = entry.2 (Slot.tok t :: rest))
    ∧ (t ∉ builtin_str →
      lsh_execute os (Slot.tok t :: rest) = lsh_launch os (Slot.tok t :: rest))
    ∧ builtin_str.Nodup
    ∧ builtin_str.length = 13
    ∧ List.zip builtin_str (builtin_func os) =
        [("cd", lsh_cd os), ("help", lsh_help), ("exit", lsh_exit), ("pwd", fun _ => lsh_pwd os),
         ("echo", lsh_echo), ("ls", lsh_ls os), ("mkdir", lsh_mkdir os), ("touch", lsh_touch os),
         ("rm", lsh_rm os), ("rmdir", lsh_rmdir os), ("clear", fun _ => lsh_clear),
         ("cp", lsh_cp os), ("mv", lsh_mv os)] := by
  refine ⟨?_, ?_, by decide, rfl, rfl⟩
  · intro entry hmem ht
    rw [builtin_table] at hmem
    funext w
    simp only [List.mem_cons, List.mem_singleton, List.not_mem_nil, or_false] at hmem
    rcases hmem with h | h | h | h | h | h | h | h | h | h | h | h | h <;> subst h <;>
      subst ht <;>
      simp [lsh_execute, argAt, execute_loop, builtin_str, builtin_func, strcmp_eq_zero]
  · intro h
    funext w
    simp [builtin_str] at h
    simp [lsh_execute, argAt, execute_loop, builtin_str, builtin_func, strcmp_eq_zero, h]

/-- C2 (witness): `echo` is dispatched to `lsh_echo`, and `foo`, which is no
builtin, to `lsh_launch`. -/
theorem lsh_execute_dispatch_witness :
    lsh_execute unix [Slot.tok "echo", Slot.null] = lsh_echo [Slot.tok "echo", Slot.null]
    ∧ lsh_execute unix [Slot.tok "foo", Slot.null]
        = lsh_launch unix [Slot.tok "foo", Slot.null] :=
  ⟨(lsh_execute_dispatch unix "echo" [Slot.null]).1 ("echo", lsh_echo)
      (by rw [builtin_table]; simp) rfl,
   (lsh_execute_dispatch unix "foo" [Slot.null]).2.1 (by decide)⟩

/-! ## The builtins `rm`, `rmdir`, `touch` and `echo` -/

/-- C7 (the code at the failing input): with `tokens[1]` absent, `lsh_rm` and
`lsh_rmdir` print their usage error and then still issue the deletion call,
`remove(NULL)` respectively `rmdir(NULL)`; the call fails, "Error: unable to
delete" is printed and 1 is returned. -/
theorem lsh_rm_rmdir_missing_argument (os : OS) (t : String) (rest : List Slot) (w : World) :
    lsh_rm os (Slot.tok t :: Slot.null :: rest) w =
        Res.ret 1 { w with err := w.err ++ "lsh_rm: expected argument to rm\n",
                           calls := w.calls ++ [Call.remove none],
                           out := w.out ++ "Error: unable to delete\n" }
    ∧ lsh_rmdir os (Slot.tok t :: Slot.null :: rest) w =
        Res.ret 1 { w with err := w.err ++ "lsh_rmdir: expected argument to rmdir\n",
                           calls := w.calls ++ [Call.rmdir none],
                           out := w.out ++ "Error: unable to delete\n" } := by
  constructor
  · simp [lsh_rm, argAt, eprintf, remove, printf]
  · simp [lsh_rmdir, argAt, eprintf, rmdir, printf]

/-- What `lsh_touch` does with `tokens[1]` present: one `creat` call with mode
0755, and the message of `perror` unless that call returned 0. -/
theorem lsh_touch_run (os : OS) (t p : String) (rest : List Slot) (w : World) :
    lsh_touch os (Slot.tok t :: Slot.tok p :: rest) w =
      match os.creat p 0o755 { w with calls := w.calls ++ [Call.creat (some p) 0o755] } with
      | none =>
        Res.ret 1 { w with
          calls := w.calls ++ [Call.creat (some p) 0o755],
          err := w.err ++ "lsh" ++ ": " ++ os.strerror
            { w with calls := w.calls ++ [Call.creat (some p) 0o755] } ++ "\n" }
      | some 0 =>
        Res.ret 1 { w with
          calls := w.calls ++ [Call.creat (some p) 0o755],
          files := setFile w.files (os.realpath w.calls p) (some []) }
      | some (_ + 1) =>
        Res.ret 1 { w with
          calls := w.calls ++ [Call.creat (some p) 0o755],
          files := setFile w.files (os.realpath w.calls p) (some []),
          err := w.err ++ "lsh" ++ ": " ++ os.strerror
            { w with calls := w.calls ++ [Call.creat (some p) 0o755],
                     files := setFile w.files (os.realpath w.calls p) (some []) } ++ "\n" } := by
  cases h : os.creat p 0o755 { w with calls := w.calls ++ [Call.creat (some p) 0o755] } with
  | none => simp [lsh_touch, argAt, creat, perror, h]
  | some fd =>
    cases fd with
    | zero => simp [lsh_touch, argAt, creat, perror, h]
    | succ n =>
      have : ((n : Int) + 1 = 0) = False := by
        simp only [eq_iff_iff, iff_false]; omega
      simp [lsh_touch, argAt, creat, perror, h, this]

/-- C10 (the code at the failing input): in an environment where `creat`
succeeds and returns the descriptor 3, `touch f` makes one `creat` call with
mode 0755, creates the empty file `f`, and still prints the message of
`perror`. -/
theorem lsh_touch_success_prints_error :
    unix.creat "f" 0o755 { boot "" with calls := [Call.creat (some "f") 0o755] } = some 3
    ∧ (lsh_touch unix [Slot.tok "touch", Slot.tok "f", Slot.null] (boot "")).value = some 1
    ∧ (lsh_touch unix [Slot.tok "touch", Slot.tok "f", Slot.null] (boot "")).world.calls
        = [Call.creat (some "f") 0o755]
    ∧ (lsh_touch unix [Slot.tok "touch", Slot.tok "f", Slot.null] (boot "")).world.files "f"
        = some []
    ∧ (lsh_touch unix [Slot.tok "touch", Slot.tok "f", Slot.null] (boot "")).world.err
        = "lsh: Success\n" := by
  refine ⟨rfl, rfl, rfl, rfl, rfl⟩

theorem get?_middle {α : Type} (pre : List α) (x : α) (rest : List α) :
    (pre ++ x :: rest)[pre.length]? = some x := by
  induction pre with
  | nil => simp
  | cons a pre ih => simpa using ih

theorem argAt_tok (pre : List Slot) (s : String) (rest : List Slot) (w : World) :
    argAt (pre ++ Slot.tok s :: rest) pre.length w = Res.ret (some s) w := by
  simp only [argAt, List.get?_eq_getElem?, get?_middle]

theorem argAt_null (pre : List Slot) (rest : List Slot) (w : World) :
    argAt (pre ++ Slot.null :: rest) pre.length w = Res.ret none w := by
  simp only [argAt, List.get?_eq_getElem?, get?_middle]

theorem join_cons (s : String) (ss : List String) : String.join (s :: ss) = s ++ String.join ss := by
  apply String.ext
  simp [String.data_join]

/-- The text `echo_loop` writes for the tokens from `args[i]` on. -/
theorem echo_loop_run (ts : List String) (rest : List Slot) :
    ∀ (pre : List Slot) (n : Nat) (w : World), ts.length < n →
      echo_loop (pre ++ (ts.map Slot.tok ++ Slot.null :: rest)) n pre.length w
        = Res.ret () { w with out := w.out ++ String.join (ts.map (fun s => s ++ " ")) } := by
  induction ts with
  | nil =>
    intro pre n w hn
    obtain ⟨m, rfl⟩ : ∃ m, n = m + 1 := ⟨n - 1, by simp at hn; omega⟩
    simp [echo_loop, argAt_null, String.join]
  | cons s ts ih =>
    intro pre n w hn
    obtain ⟨m, rfl⟩ : ∃ m, n = m + 1 := ⟨n - 1, by simp at hn; omega⟩
    have h := ih (pre ++ [Slot.tok s]) m { w with out := w.out ++ (s ++ " ") }
      (by simp at hn; omega)
    simp only [List.append_assoc, List.singleton_append, List.length_append,
      List.length_singleton] at h
    simp only [echo_loop, List.map_cons, List.cons_append, bind_run, argAt_tok, printf, h,
      join_cons, String.append_assoc]

/-- C6 (amended): for every token list whose `tokens[0]` is present, `lsh_echo`
writes each of `tokens[1..]` followed by one space, then one newline (just a
newline when there are no arguments), and returns 1. -/
theorem lsh_echo_output (t : String) (ts : List String) (rest : List Slot) (w : World) :
    lsh_echo (Slot.tok t :: (ts.map Slot.tok ++ Slot.null :: rest)) w
      = Res.ret 1 { w with out := w.out ++ String.join (ts.map (fun s => s ++ " ")) ++ "\n" } := by
  have h := echo_loop_run ts rest [Slot.tok t]
    ((Slot.tok t :: (ts.map Slot.tok ++ Slot.null :: rest)).length + 1) w
    (by simp; omega)
  simp only [List.singleton_append, List.length_singleton] at h
  simp only [lsh_echo, bind_run, h, printf, pure_run]

/-- C6 (counterexample): for the tokens `echo a b` the text written is
`"a b \n"`, with a space before the newline, not the arguments separated by
single spaces and followed by a newline. -/
theorem lsh_echo_trailing_space :
    (lsh_echo [Slot.tok "echo", Slot.tok "a", Slot.tok "b", Slot.null] (boot "")).world.out
        = "a b \n"
    ∧ (lsh_echo [Slot.tok "echo", Slot.tok "a", Slot.tok "b", Slot.null] (boot "")).world.out
        ≠ (boot "").out ++ " ".intercalate ["a", "b"] ++ "\n" := by
  refine ⟨rfl, by decide⟩

/-! ## The builtins `cp` and `mv` -/

theorem set_middle {α : Type} (pre : List α) (x y : α) (rest : List α) :
    (pre ++ x :: rest).set pre.length y = pre ++ y :: rest := by
  induction pre with
  | nil => rfl
  | cons a pre ih => simp [ih]

theorem char_int_eq (c d : Char) : ((c.toNat : Int) = (d.toNat : Int)) ↔ c = d := by
  constructor
  · intro h
    have h2 : c.toNat = d.toNat := by exact_mod_cast h
    exact Char.ext (UInt32.ext (by simpa [Char.toNat] using h2))
  · rintro rfl
    rfl

theorem char_int_ne_EOF (c : Char) : ((c.toNat : Int) = EOF) = False := by
  simp only [EOF, eq_iff_iff, iff_false]
  omega

theorem store_middle {α : Type} (pre : List α) (x y : α) (rest : List α) :
    store (pre ++ x :: rest) pre.length y = some (pre ++ y :: rest) := by
  simp [store, set_middle]

theorem line_buffer_cons (os : OS) (written : List Char) :
    line_buffer os written = written ++ os.junk ::
      List.replicate (line_capacity written.length - written.length - 1) os.junk := by
  have h : line_capacity written.length - written.length
      = (line_capacity written.length - written.length - 1) + 1 := by
    simp only [line_capacity, LSH_RL_BUFSIZE]; omega
  rw [line_buffer, h, List.replicate_succ]
  simp

theorem int_add_ok (a b : Nat) (w : World) (h : a + b ≤ INT_MAX) :
    int_add a b w = Res.ret (a + b) w := by
  simp [int_add, h]

theorem int_add_overflow (a b : Nat) (w : World) (h : INT_MAX < a + b) :
    int_add a b w = Res.stop Halt.fault w := by
  simp [int_add, Nat.not_le.mpr h]

/-- One iteration of `read_loop` on a character that is not a newline, while
the counters stay within `INT_MAX`: the character is stored, and the block
grows by `LSH_RL_BUFSIZE` when it is full. -/
theorem read_loop_step (os : OS) (halloc : ∀ n w, os.alloc n w = true)
    (out err : String) (files : String → Option (List Byte)) (streams : List (Option Stream))
    (calls : List Call) (inp : List Char) (n : Nat) (c : Char) (hc : c ≠ '\n')
    (written : List Char) (hb : written.length + 1 + LSH_RL_BUFSIZE ≤ INT_MAX) :
    read_loop os (n + 1) (line_capacity written.length) written.length (line_buffer os written)
        ⟨c :: inp, out, err, files, streams, calls⟩
      = read_loop os n (line_capacity (written ++ [c]).length) (written ++ [c]).length
        (line_buffer os (written ++ [c])) ⟨inp, out, err, files, streams, calls⟩ := by
  have hcn : ((c.toNat : Int) = ('\n'.toNat : Int)) = False := by
    simp only [char_int_eq, eq_iff_iff, iff_false]; exact hc
  have hpos : written.length + 1 ≤ INT_MAX := by
    simp only [LSH_RL_BUFSIZE, INT_MAX] at *; omega
  rw [line_buffer_cons]
  simp only [read_loop, bind_run, getchar, char_int_ne_EOF, if_false, hcn, Int.toNat_ofNat,
    Char.ofNat_toNat, store_middle, List.length_append, List.length_singleton,
    int_add_ok _ _ _ hpos]
  by_cases hfull : written.length + 1 ≥ line_capacity written.length
  · have hcap : line_capacity written.length + LSH_RL_BUFSIZE
        = line_capacity (written.length + 1) := by
      simp only [line_capacity, LSH_RL_BUFSIZE] at *; omega
    have hbuf : line_capacity written.length + LSH_RL_BUFSIZE ≤ INT_MAX := by
      simp only [line_capacity, LSH_RL_BUFSIZE, INT_MAX] at *; omega
    have hzero : line_capacity written.length - written.length - 1 = 0 := by
      simp only [line_capacity, LSH_RL_BUFSIZE] at *; omega
    have hlen : line_capacity (written.length + 1) - (written.length + 1) = LSH_RL_BUFSIZE := by
      simp only [line_capacity, LSH_RL_BUFSIZE] at *; omega
    have htake : List.take (line_capacity (written.length + 1)) (written ++ [c])
        = written ++ [c] := by
      apply List.take_of_length_le
      simp only [line_capacity, LSH_RL_BUFSIZE, List.length_append, List.length_singleton] at *
      omega
    simp only [hfull, if_true, bind_run, int_add_ok _ _ _ hbuf, realloc, halloc, hzero,
      List.replicate_zero, hcap, htake, line_buffer, List.length_append, List.length_singleton,
      hlen]
  · have hcap : line_capacity written.length = line_capacity (written.length + 1) := by
      simp only [line_capacity, LSH_RL_BUFSIZE] at *; omega
    have hlen : line_capacity (written.length + 1) - (written.length + 1)
        = line_capacity written.length - written.length - 1 := by
      simp only [line_capacity, LSH_RL_BUFSIZE] at *; omega
    simp only [hfull, if_false, line_buffer, List.length_append, List.length_singleton, hlen,
      List.append_assoc, List.singleton_append, ← hcap, Nat.sub_sub]

/-- The iteration of `read_loop` that stores character number
`INT_MAX - LSH_RL_BUFSIZE + 1` of a line: the block is full and
`bufsize += LSH_RL_BUFSIZE` overflows. -/
theorem read_loop_step_overflow (os : OS)
    (out err : String) (files : String → Option (List Byte)) (streams : List (Option Stream))
    (calls : List Call) (inp : List Char) (n : Nat) (c : Char) (hc : c ≠ '\n')
    (written : List Char) (hb : written.length + 1 + LSH_RL_BUFSIZE = INT_MAX + 1) :
    read_loop os (n + 1) (line_capacity written.length) written.length (line_buffer os written)
        ⟨c :: inp, out, err, files, streams, calls⟩
      = Res.stop Halt.fault ⟨inp, out, err, files, streams, calls⟩ := by
  have hcn : ((c.toNat : Int) = ('\n'.toNat : Int)) = False := by
    simp only [char_int_eq, eq_iff_iff, iff_false]; exact hc
  have hpos : written.length + 1 ≤ INT_MAX := by
    simp only [LSH_RL_BUFSIZE, INT_MAX] at *; omega
  have hfull : written.length + 1 ≥ line_capacity written.length := by
    simp only [line_capacity, LSH_RL_BUFSIZE, INT_MAX] at *; omega
  have hbuf : INT_MAX < line_capacity written.length + LSH_RL_BUFSIZE := by
    simp only [line_capacity, LSH_RL_BUFSIZE, INT_MAX] at *; omega
  rw [line_buffer_cons]
  simp only [read_loop, bind_run, getchar, char_int_ne_EOF, if_false, hcn, Int.toNat_ofNat,
    Char.ofNat_toNat, store_middle, int_add_ok _ _ _ hpos, hfull, if_true,
    int_add_overflow _ _ _ hbuf]

/-- The iterations of `read_loop` that read the characters of a line before
its end, while the counters stay within `INT_MAX`. -/
theorem read_loop_chars (os : OS) (halloc : ∀ n w, os.alloc n w = true)
    (out err : String) (files : String → Option (List Byte)) (streams : List (Option Stream))
    (calls : List Call) (tail : List Char) (n : Nat) :
    ∀ (p written : List Char), '\n' ∉ p →
      (written ++ p).length + LSH_RL_BUFSIZE ≤ INT_MAX →
      read_loop os (n + p.length) (line_capacity written.length) written.length
          (line_buffer os written) ⟨p ++ tail, out, err, files, streams, calls⟩
        = read_loop os n (line_capacity (written ++ p).length) (written ++ p).length
          (line_buffer os (written ++ p)) ⟨tail, out, err, files, streams, calls⟩ := by
  intro p
  induction p with
  | nil => intro written _ _; simp
  | cons c p ih =>
    intro written hp hb
    have hc : c ≠ '\n' := fun h => hp (by simp [h])
    have hp2 : '\n' ∉ p := fun h => hp (List.mem_cons_of_mem _ h)
    have hb1 : written.length + 1 + LSH_RL_BUFSIZE ≤ INT_MAX := by
      simp only [List.length_append, List.length_cons] at hb; omega
    have h := ih (written ++ [c]) hp2 (by
      simp only [List.length_append, List.length_cons, List.length_nil] at hb ⊢; omega)
    simp only [List.append_assoc, List.singleton_append] at h
    rw [← h]
    exact read_loop_step os halloc out err files streams calls (p ++ tail) (n + p.length) c hc
      written hb1

theorem cstr_terminated (p tail : List Char) (hp : NUL ∉ p) : cstr (p ++ NUL :: tail) = p := by
  unfold cstr
  rw [List.takeWhile_append_of_pos]
  · simp
  · intro a ha
    have : a ≠ NUL := fun h => hp (h ▸ ha)
    simpa using this

/-- What `lsh_read_line` does with an input that starts with
`INT_MAX - LSH_RL_BUFSIZE + 1` characters other than a newline: it reads them
and stops in the signed overflow of `bufsize += LSH_RL_BUFSIZE`. -/
theorem lsh_read_line_overflow (os : OS) (halloc : ∀ n w, os.alloc n w = true)
    (p tail : List Char) (w : World) (hp : '\n' ∉ p)
    (hlen : p.length + LSH_RL_BUFSIZE = INT_MAX + 1) (hw : w.input = p ++ tail) :
    lsh_read_line os w = Res.stop Halt.fault { w with input := tail } := by
  obtain ⟨input, out, err, files, streams, calls⟩ := w
  simp only at hw
  subst hw
  have hne : p ≠ [] := by
    intro h
    subst h
    simp [LSH_RL_BUFSIZE, INT_MAX] at hlen
  obtain ⟨q, c, rfl⟩ : ∃ q c, p = q ++ [c] :=
    ⟨p.dropLast, p.getLast hne, (List.dropLast_append_getLast hne).symm⟩
  have hq : '\n' ∉ q := fun h => hp (List.mem_append_left _ h)
  have hc : c ≠ '\n' := fun h => hp (by simp [h])
  simp only [List.length_append, List.length_singleton] at hlen
  have h := read_loop_chars os halloc out err files streams calls (c :: tail)
    (tail.length + 1 + 1) q [] hq (by
      simp only [List.nil_append, LSH_RL_BUFSIZE, INT_MAX] at *; omega)
  have hfuel : (q ++ c :: tail).length + 1 = tail.length + 1 + 1 + q.length := by
    simp only [List.length_append, List.length_cons]; omega
  have h0 : List.replicate LSH_RL_BUFSIZE os.junk = line_buffer os [] := rfl
  have h1 : LSH_RL_BUFSIZE = line_capacity ([] : List Char).length := rfl
  simp only [lsh_read_line, bind_run, malloc, halloc, if_true, h0, List.append_assoc,
    List.singleton_append, hfuel]
  rw [show (0 : Nat) = ([] : List Char).length from rfl]
  conv => lhs; arg 3; rw [h1]
  rw [h, List.nil_append]
  exact read_loop_step_overflow os out err files streams calls tail (tail.length + 1) c hc q
    hlen

/-- C4 (amended): for every input `p ++ "\n" ++ rest` where `p` contains no
newline and has at most `INT_MAX - LSH_RL_BUFSIZE` (2147482623) characters (and
allocation does not fail), `lsh_read_line` returns a buffer that holds exactly
`p` followed by the terminator, and consumes exactly `p` and that one newline;
the capacity of the buffer is the least multiple of 1024 above the length of
`p`.  When `p` contains no NUL the C string in the buffer is `p`. -/
theorem lsh_read_line_returns_line (os : OS) (halloc : ∀ n w, os.alloc n w = true)
    (p rest : List Char) (w : World) (hp : '\n' ∉ p)
    (hlen : p.length + LSH_RL_BUFSIZE ≤ INT_MAX) (hw : w.input = p ++ '\n' :: rest) :
    lsh_read_line os w
        = Res.ret (p ++ NUL :: List.replicate (line_capacity p.length - p.length - 1) os.junk)
            { w with input := rest }
    ∧ (p ++ NUL :: List.replicate (line_capacity p.length - p.length - 1) os.junk).length
        = LSH_RL_BUFSIZE * (p.length / LSH_RL_BUFSIZE + 1)
    ∧ (NUL ∉ p →
        cstr (p ++ NUL :: List.replicate (line_capacity p.length - p.length - 1) os.junk) = p) := by
  refine ⟨?_, ?_, fun h => cstr_terminated p _ h⟩
  · obtain ⟨input, out, err, files, streams, calls⟩ := w
    simp only at hw
    subst hw
    have h := read_loop_chars os halloc out err files streams calls ('\n' :: rest)
      (rest.length + 1 + 1) p [] hp (by simpa using hlen)
    have hfuel : (p ++ '\n' :: rest).length + 1 = rest.length + 1 + 1 + p.length := by
      simp only [List.length_append, List.length_cons]; omega
    have h0 : List.replicate LSH_RL_BUFSIZE os.junk = line_buffer os [] := rfl
    have h1 : LSH_RL_BUFSIZE = line_capacity ([] : List Char).length := rfl
    simp only [lsh_read_line, bind_run, malloc, halloc, if_true, hfuel, h0]
    rw [show (0 : Nat) = ([] : List Char).length from rfl]
    conv => lhs; arg 3; rw [h1]
    rw [h, List.nil_append, line_buffer_cons]
    simp only [read_loop, bind_run, getchar, char_int_ne_EOF, if_false, if_true, store_middle,
      pure_run]
  · simp only [List.length_append, List.length_cons, List.length_replicate, line_capacity,
      LSH_RL_BUFSIZE]
    omega

/-- C4 (witness): a line of 1024 characters, which fills the first block, is
followed by more input. -/
theorem lsh_read_line_returns_line_witness :
    lsh_read_line unix { boot "" with input := List.replicate 1024 'a' ++ '\n' :: "pwd\n".toList }
        = Res.ret (List.replicate 1024 'a' ++ NUL ::
              List.replicate (line_capacity (List.replicate 1024 'a').length
                - (List.replicate 1024 'a').length - 1) unix.junk)
            { boot "" with input := "pwd\n".toList }
    ∧ (List.replicate 1024 'a' ++ NUL ::
          List.replicate (line_capacity (List.replicate 1024 'a').length
            - (List.replicate 1024 'a').length - 1) unix.junk).length
        = LSH_RL_BUFSIZE * ((List.replicate 1024 'a').length / LSH_RL_BUFSIZE + 1)
    ∧ (NUL ∉ List.replicate 1024 'a' →
        cstr (List.replicate 1024 'a' ++ NUL ::
          List.replicate (line_capacity (List.replicate 1024 'a').length
            - (List.replicate 1024 'a').length - 1) unix.junk)
          = List.replicate 1024 'a') :=
  lsh_read_line_returns_line unix (fun _ _ => rfl) (List.replicate 1024 'a') "pwd\n".toList
    { boot "" with input := List.replicate 1024 'a' ++ '\n' :: "pwd\n".toList }
    (fun h => absurd (List.eq_of_mem_replicate h) (by decide))
    (by rw [List.length_replicate]; decide) rfl

/-- C4 (counterexample): for the input of 2147482624 characters `a` followed by
a newline, in an environment where allocation never fails, `lsh_read_line`
does not return the line: when it has stored the last `a` the buffer of
2147482624 cells is full, and `bufsize += LSH_RL_BUFSIZE` passes `INT_MAX`. -/
theorem lsh_read_line_long_line_overflows :
    (lsh_read_line unix
        { boot "" with input := List.replicate 2147482624 'a' ++ ['\n'] }).value = none
    ∧ (lsh_read_line unix
        { boot "" with input := List.replicate 2147482624 'a' ++ ['\n'] }).halt
        = some Halt.fault := by
  have h := lsh_read_line_overflow unix (fun _ _ => rfl) (List.replicate 2147482624 'a') ['\n']
    { boot "" with input := List.replicate 2147482624 'a' ++ ['\n'] }
    (fun h => absurd (List.eq_of_mem_replicate h) (by decide))
    (by rw [List.length_replicate]; rfl) rfl
  rw [h]
  exact ⟨rfl, rfl⟩

/-- C5 (amended): for every input that ends before a newline and has at most
`INT_MAX - LSH_RL_BUFSIZE` (2147482623) characters (and allocation does not
fail), `lsh_read_line` does not return: the process exits with
`EXIT_SUCCESS`.  So does `lsh_loop`, after the prompt and with nothing else
changed in the world: the characters read are neither split nor dispatched. -/
theorem lsh_read_line_exits_at_eof (os : OS) (halloc : ∀ n w, os.alloc n w = true) (w : World)
    (hp : '\n' ∉ w.input) (hlen : w.input.length + LSH_RL_BUFSIZE ≤ INT_MAX) :
    lsh_read_line os w = Res.stop (Halt.exit EXIT_SUCCESS) { w with input := [] }
    ∧ lsh_loop os w
        = Res.stop (Halt.exit EXIT_SUCCESS) { w with input := [], out := w.out ++ "> " } := by
  obtain ⟨input, out, err, files, streams, calls⟩ := w
  simp only at hp hlen
  have key : ∀ out1 : String, lsh_read_line os ⟨input, out1, err, files, streams, calls⟩
      = Res.stop (Halt.exit EXIT_SUCCESS) ⟨[], out1, err, files, streams, calls⟩ := by
    intro out1
    have h := read_loop_chars os halloc out1 err files streams calls [] 1 input [] hp
      (by simpa using hlen)
    have h0 : List.replicate LSH_RL_BUFSIZE os.junk = line_buffer os [] := rfl
    have h1 : LSH_RL_BUFSIZE = line_capacity ([] : List Char).length := rfl
    simp only [List.append_nil] at h
    simp only [lsh_read_line, bind_run, malloc, halloc, if_true, h0]
    rw [show (0 : Nat) = ([] : List Char).length from rfl, Nat.add_comm]
    conv => lhs; arg 3; rw [h1]
    rw [h]
    simp only [read_loop, bind_run, getchar, if_true, exit, halt]
  refine ⟨key out, ?_⟩
  simp only [lsh_loop, loop_n, bind_run, printf, key]

/-- C5 (witness): the input `rm x` without a newline. -/
theorem lsh_read_line_exits_at_eof_witness :
    lsh_read_line unix (boot "rm x")
        = Res.stop (Halt.exit EXIT_SUCCESS) { boot "rm x" with input := [] }
    ∧ lsh_loop unix (boot "rm x")
        = Res.stop (Halt.exit EXIT_SUCCESS)
            { boot "rm x" with input := [], out := (boot "rm x").out ++ "> " } :=
  lsh_read_line_exits_at_eof unix (fun _ _ => rfl) (boot "rm x") (by decide) (by decide)

/-- C5 (counterexample): for the input of 2147482624 characters `a` that ends
without a newline, in an environment where allocation never fails,
`lsh_read_line` does not exit with `EXIT_SUCCESS`: it stops in the signed
overflow of `bufsize += LSH_RL_BUFSIZE` before the end of the input is seen. -/
theorem lsh_read_line_long_input_overflows :
    '\n' ∉ List.replicate 2147482624 'a'
    ∧ (lsh_read_line unix { boot "" with input := List.replicate 2147482624 'a' }).halt
        = some Halt.fault
    ∧ (lsh_read_line unix { boot "" with input := List.replicate 2147482624 'a' }).halt
        ≠ some (Halt.exit EXIT_SUCCESS) := by
  have hn : '\n' ∉ List.replicate 2147482624 'a' :=
    fun h => absurd (List.eq_of_mem_replicate h) (by decide)
  have h := lsh_read_line_overflow unix (fun _ _ => rfl) (List.replicate 2147482624 'a') []
    { boot "" with input := List.replicate 2147482624 'a' } hn
    (by rw [List.length_replicate]; rfl) (List.append_nil _).symm
  rw [h]
  exact ⟨hn, rfl, by decide⟩

/-! ## Splitting a line -/

theorem splitOnP_eq {α : Type} (p : α → Bool) (xs : List α) :
    xs.splitOnP p = xs.takeWhile (fun c => !p c) ::
      (match xs.dropWhile (fun c => !p c) with
       | [] => []
       | _ :: r => r.splitOnP p) := by
  induction xs with
  | nil => simp
  | cons x xs ih =>
    rw [List.splitOnP_cons]
    by_cases hx : p x = true
    · simp [hx]
    · have hx2 : p x = false := by simpa using hx
      rw [ih]
      simp [List.takeWhile_cons, List.dropWhile_cons, hx2, List.modifyHead]

theorem fields_nil : fields [] = [] := by
  simp [fields, cstr]

theorem fields_NUL (mem : List Char) : fields (NUL :: mem) = [] := by
  simp [fields, cstr]

theorem NUL_not_delim : NUL ∉ LSH_TOK_DELIM := by decide

theorem fields_delim (d : Char) (mem : List Char) (hd : d ∈ LSH_TOK_DELIM) :
    fields (d :: mem) = fields mem := by
  have hn : d ≠ NUL := fun h => NUL_not_delim (h ▸ hd)
  simp [fields, cstr, List.takeWhile_cons, hn, List.splitOnP_cons, hd]

/-- The token that starts with the characters before the next delimiter or
terminator. -/
theorem run_eq (m : List Char) :
    List.takeWhile (fun c => !decide (c ∈ LSH_TOK_DELIM)) (cstr m)
      = m.takeWhile (fun c => decide (c ≠ NUL ∧ c ∉ LSH_TOK_DELIM)) := by
  induction m with
  | nil => simp [cstr]
  | cons c m ih =>
    unfold cstr at *
    by_cases hc : c = NUL
    · simp [List.takeWhile_cons, hc]
    · by_cases hd : c ∈ LSH_TOK_DELIM
      · simp [List.takeWhile_cons, hc, hd]
      · simpa [List.takeWhile_cons, hc, hd] using ih

theorem after_eq (m : List Char) :
    List.dropWhile (fun c => !decide (c ∈ LSH_TOK_DELIM)) (cstr m)
      = cstr (m.dropWhile (fun c => decide (c ≠ NUL ∧ c ∉ LSH_TOK_DELIM))) := by
  induction m with
  | nil => simp [cstr]
  | cons c m ih =>
    unfold cstr at *
    by_cases hc : c = NUL
    · simp [List.takeWhile_cons, List.dropWhile_cons, hc]
    · by_cases hd : c ∈ LSH_TOK_DELIM
      · simp [List.takeWhile_cons, List.dropWhile_cons, hc, hd]
      · simpa [List.takeWhile_cons, List.dropWhile_cons, hc, hd] using ih

theorem dropWhile_head {α : Type} (q : α → Bool) (m : List α) (a : α) (r : List α)
    (h : m.dropWhile q = a :: r) : q a = false := by
  induction m with
  | nil => simp at h
  | cons x m ih =>
    rw [List.dropWhile_cons] at h
    by_cases hx : q x = true
    · simp only [hx, if_true] at h
      exact ih h
    · simp only [hx, if_false] at h
      injection h with h1 h2
      subst h1
      simpa using hx

/-- The fields behind a token: `rest` starts at the first character that ends
the token. -/
theorem fields_behind (rest : List Char)
    (h : ∀ a r, rest = a :: r → a = NUL ∨ a ∈ LSH_TOK_DELIM) :
    List.map String.mk (List.filter (fun run => decide (run ≠ []))
      (match cstr rest with
       | [] => []
       | _ :: r => List.splitOnP (fun c => decide (c ∈ LSH_TOK_DELIM)) r))
      = fields rest := by
  cases rest with
  | nil => simp [fields, cstr]
  | cons a r =>
    by_cases ha : a = NUL
    · subst ha
      simp [fields, cstr]
    · have hd : a ∈ LSH_TOK_DELIM := (h a r rfl).resolve_left ha
      rw [fields_delim a r hd]
      simp [fields, cstr, List.takeWhile_cons, ha]

theorem fields_char (c : Char) (m : List Char) (hn : c ≠ NUL) (hd : c ∉ LSH_TOK_DELIM) :
    fields (c :: m)
      = String.mk (c :: m.takeWhile (fun c => decide (c ≠ NUL ∧ c ∉ LSH_TOK_DELIM)))
        :: fields (m.dropWhile (fun c => decide (c ≠ NUL ∧ c ∉ LSH_TOK_DELIM))) := by
  have hb := fields_behind (m.dropWhile (fun c => decide (c ≠ NUL ∧ c ∉ LSH_TOK_DELIM)))
    (by
      intro a r har
      have := dropWhile_head _ m a r har
      by_cases ha : a = NUL
      · exact Or.inl ha
      · right
        simpa [ha] using this)
  rw [← hb, ← after_eq, ← run_eq]
  have hc : cstr (c :: m) = c :: cstr m := by simp [cstr, List.takeWhile_cons, hn]
  conv => lhs; unfold fields
  rw [hc, List.splitOnP_cons, splitOnP_eq]
  simp only [hd, decide_False, Bool.false_eq_true, if_false, List.modifyHead]
  rw [List.filter_cons_of_pos (by simp), List.map_cons]
  congr 1
  generalize List.dropWhile (fun c => !decide (c ∈ LSH_TOK_DELIM)) (cstr m) = behind
  cases behind <;> rfl

/-- What `strtok` returns, in terms of the specification: no token when there
is no field; otherwise the first field, and the scan resumes where the
remaining fields are. -/
theorem strtok_fields (mem : List Char) :
    match strtok mem LSH_TOK_DELIM with
    | (none, _) => fields mem = []
    | (some t, saved) => fields mem = t :: fields saved := by
  induction mem with
  | nil => simp [strtok, fields_nil]
  | cons c m ih =>
    by_cases hn : c = NUL
    · subst hn
      simp [strtok, List.dropWhile_cons, fields_NUL]
    · by_cases hd : c ∈ LSH_TOK_DELIM
      · rw [fields_delim c m hd]
        have : strtok (c :: m) LSH_TOK_DELIM = strtok m LSH_TOK_DELIM := by
          simp [strtok, List.dropWhile_cons, hn, hd]
        rw [this]
        exact ih
      · rw [fields_char c m hn hd]
        have hp1 : decide (c ≠ NUL ∧ c ∈ LSH_TOK_DELIM) = false := by simp [hd]
        have hp2 : decide (c ≠ NUL ∧ c ∉ LSH_TOK_DELIM) = true := by simp [hn, hd]
        cases hA : m.dropWhile (fun c => decide (c ≠ NUL ∧ c ∉ LSH_TOK_DELIM)) with
        | nil =>
          simp only [strtok, List.dropWhile_cons, List.takeWhile_cons, hp1, hp2, hn, hA,
            if_true, if_false, Bool.false_eq_true]
        | cons d rest =>
          by_cases hdn : d = NUL
          · simp only [strtok, List.dropWhile_cons, List.takeWhile_cons, hp1, hp2, hn, hA, hdn,
              if_true, if_false, Bool.false_eq_true]
          · have hdd : d ∈ LSH_TOK_DELIM := by
              have := dropWhile_head _ m d rest hA
              simpa [hdn] using this
            rw [fields_delim d rest hdd]
            simp only [strtok, List.dropWhile_cons, List.takeWhile_cons, hp1, hp2, hn, hA, hdn,
              if_true, if_false, Bool.false_eq_true]

theorem strtok_inv (mem : List Char) :
    ((strtok mem LSH_TOK_DELIM).1 = none ∧ fields mem = [])
    ∨ ∃ t, (strtok mem LSH_TOK_DELIM).1 = some t
        ∧ fields mem = t :: fields (strtok mem LSH_TOK_DELIM).2 := by
  have h := strtok_fields mem
  rcases hs : strtok mem LSH_TOK_DELIM with ⟨token, saved⟩
  rw [hs] at h
  cases token with
  | none => exact Or.inl ⟨rfl, h⟩
  | some t => exact Or.inr ⟨t, rfl, h⟩

theorem fields_length_le : ∀ (n : Nat) (mem : List Char), mem.length ≤ n →
    (fields mem).length ≤ mem.length := by
  intro n
  induction n with
  | zero =>
    intro mem h
    have : mem = [] := List.length_eq_zero.mp (Nat.le_zero.mp h)
    subst this
    simp [fields_nil]
  | succ n ih =>
    intro mem h
    cases mem with
    | nil => simp [fields_nil]
    | cons c m =>
      have hm : m.length ≤ n := by simpa using h
      by_cases hn : c = NUL
      · subst hn
        simp [fields_NUL]
      · by_cases hd : c ∈ LSH_TOK_DELIM
        · rw [fields_delim c m hd]
          have := ih m hm
          simp only [List.length_cons]
          omega
        · rw [fields_char c m hn hd]
          have h1 := (@List.dropWhile_sublist Char m
            (fun c => decide (c ≠ NUL ∧ c ∉ LSH_TOK_DELIM))).length_le
          have h2 := ih (m.dropWhile (fun c => decide (c ≠ NUL ∧ c ∉ LSH_TOK_DELIM)))
            (by omega)
          simp only [List.length_cons]
          omega

theorem token_buffer_cons (stored : List String) :
    token_buffer stored = stored.map Slot.tok ++ Slot.wild ::
      List.replicate (token_capacity stored.length - stored.length - 1) Slot.wild := by
  have h : token_capacity stored.length - stored.length
      = (token_capacity stored.length - stored.length - 1) + 1 := by
    simp only [token_capacity, LSH_TOK_BUFSIZE]; omega
  rw [token_buffer, h, List.replicate_succ]
  simp

theorem store_token {α : Type} (stored : List String) (f : String → α) (x y : α)
    (rest : List α) :
    store (stored.map f ++ x :: rest) stored.length y = some (stored.map f ++ y :: rest) := by
  have h := store_middle (stored.map f) x y rest
  rwa [List.length_map] at h

/-- One iteration of `split_loop` on a token: the token is stored, the block
grows by `LSH_TOK_BUFSIZE` when it is full, and the next token is taken. -/
theorem split_loop_step (os : OS) (halloc : ∀ n w, os.alloc n w = true) (w : World) (n : Nat)
    (stored : List String) (t : String) (saved : List Char) :
    split_loop os (n + 1) (token_capacity stored.length) stored.length (token_buffer stored)
        (some t) saved w
      = split_loop os n (token_capacity (stored ++ [t]).length) (stored ++ [t]).length
        (token_buffer (stored ++ [t])) (strtok saved LSH_TOK_DELIM).1
        (strtok saved LSH_TOK_DELIM).2 w := by
  rw [token_buffer_cons]
  simp only [split_loop, store_token, List.length_append, List.length_singleton]
  by_cases hfull : stored.length + 1 ≥ token_capacity stored.length
  · have hcap : token_capacity stored.length + LSH_TOK_BUFSIZE
        = token_capacity (stored.length + 1) := by
      simp only [token_capacity, LSH_TOK_BUFSIZE] at *; omega
    have hzero : token_capacity stored.length - stored.length - 1 = 0 := by
      simp only [token_capacity, LSH_TOK_BUFSIZE] at *; omega
    have hlen : token_capacity (stored.length + 1) - (stored.length + 1) = LSH_TOK_BUFSIZE := by
      simp only [token_capacity, LSH_TOK_BUFSIZE] at *; omega
    have htake : List.take (token_capacity (stored.length + 1))
        (List.map Slot.tok stored ++ [Slot.tok t]) = List.map Slot.tok stored ++ [Slot.tok t] := by
      apply List.take_of_length_le
      simp only [token_capacity, LSH_TOK_BUFSIZE, List.length_append, List.length_singleton,
        List.length_map] at *
      omega
    simp only [hfull, if_true, realloc, halloc, bind_run, hzero, List.replicate_zero, hcap,
      htake, token_buffer, List.length_append, List.length_singleton, hlen, List.length_map,
      List.map_append, List.map_cons, List.map_nil]
  · have hcap : token_capacity stored.length = token_capacity (stored.length + 1) := by
      simp only [token_capacity, LSH_TOK_BUFSIZE] at *; omega
    have hlen : token_capacity (stored.length + 1) - (stored.length + 1)
        = token_capacity stored.length - stored.length - 1 := by
      simp only [token_capacity, LSH_TOK_BUFSIZE] at *; omega
    simp only [hfull, if_false, token_buffer, List.length_append, List.length_singleton, hlen,
      List.append_assoc, List.singleton_append, ← hcap, Nat.sub_sub, List.map_append,
      List.map_cons, List.map_nil]

/-- The loop of `lsh_split_line` stores the remaining fields and the final
`NULL`. -/
theorem split_loop_run (os : OS) (halloc : ∀ n w, os.alloc n w = true) (w : World) :
    ∀ (remaining : List String) (n : Nat) (stored : List String) (token : Option String)
      (saved : List Char),
      ((token = none ∧ remaining = []) ∨ ∃ t, token = some t ∧ remaining = t :: fields saved) →
      remaining.length < n →
      split_loop os n (token_capacity stored.length) stored.length (token_buffer stored)
          token saved w
        = Res.ret ((stored ++ remaining).map Slot.tok ++ Slot.null ::
            List.replicate (token_capacity (stored ++ remaining).length
              - (stored ++ remaining).length - 1) Slot.wild) w := by
  intro remaining
  induction remaining with
  | nil =>
    intro n stored token saved hinv hn
    obtain ⟨m, rfl⟩ : ∃ m, n = m + 1 := ⟨n - 1, by omega⟩
    rcases hinv with ⟨rfl, _⟩ | ⟨t, _, h⟩
    · rw [token_buffer_cons]
      simp only [split_loop, store_token, List.append_nil, pure_run]
    · cases h
  | cons r remaining ih =>
    intro n stored token saved hinv hn
    obtain ⟨m, rfl⟩ : ∃ m, n = m + 1 := ⟨n - 1, by simp at hn; omega⟩
    rcases hinv with ⟨_, h⟩ | ⟨t, rfl, h⟩
    · cases h
    · injection h with h1 h2
      subst h1
      rw [split_loop_step os halloc]
      have h := ih m (stored ++ [r]) (strtok saved LSH_TOK_DELIM).1
        (strtok saved LSH_TOK_DELIM).2 (by rw [h2]; exact strtok_inv saved)
        (by simp at hn; omega)
      rw [h]
      simp

theorem fields_tokens : ∀ (n : Nat) (mem : List Char), mem.length ≤ n →
    ∀ t ∈ fields mem, t ≠ "" ∧ ∀ c ∈ t.data, c ∉ LSH_TOK_DELIM ∧ c ≠ NUL := by
  intro n
  induction n with
  | zero =>
    intro mem h
    have : mem = [] := List.length_eq_zero.mp (Nat.le_zero.mp h)
    subst this
    simp [fields_nil]
  | succ n ih =>
    intro mem h
    cases mem with
    | nil => simp [fields_nil]
    | cons c m =>
      have hm : m.length ≤ n := by simpa using h
      by_cases hn : c = NUL
      · subst hn
        simp [fields_NUL]
      · by_cases hd : c ∈ LSH_TOK_DELIM
        · rw [fields_delim c m hd]
          exact ih m hm
        · rw [fields_char c m hn hd]
          have h1 := (@List.dropWhile_sublist Char m
            (fun c => decide (c ≠ NUL ∧ c ∉ LSH_TOK_DELIM))).length_le
          intro t ht
          rcases List.mem_cons.mp ht with rfl | ht
          · refine ⟨by simp [String.ext_iff], ?_⟩
            intro x hx
            rcases List.mem_cons.mp hx with rfl | hx
            · exact ⟨hd, hn⟩
            · have := List.mem_takeWhile_imp hx
              simp only [decide_eq_true_eq] at this
              exact ⟨this.2, this.1⟩
          · exact ih _ (by omega) t ht

theorem fields_delimiters_only (mem : List Char) (h : ∀ c ∈ cstr mem, c ∈ LSH_TOK_DELIM) :
    fields mem = [] := by
  induction mem with
  | nil => exact fields_nil
  | cons c m ih =>
    by_cases hn : c = NUL
    · subst hn
      exact fields_NUL m
    · have hc : cstr (c :: m) = c :: cstr m := by simp [cstr, List.takeWhile_cons, hn]
      rw [hc] at h
      rw [fields_delim c m (h c (List.mem_cons_self _ _))]
      exact ih (fun x hx => h x (List.mem_cons_of_mem _ hx))

theorem argv_block (ts : List String) (rest : List Slot) :
    argv (ts.map Slot.tok ++ Slot.null :: rest) = ts := by
  induction ts with
  | nil => rfl
  | cons t ts ih => simp [argv, ih]

/-- C1: for every line (and allocation not failing), `lsh_split_line` returns
a block that holds, in order, exactly the maximal non-empty runs of characters
of the line that are not delimiters, followed by `NULL`; this for every number
of tokens, the capacity of the block being the least multiple of 64 above that
number.  No token is empty, none contains a delimiter, a line of delimiters
only (or an empty one) yields no token, and `"echo  a   b\tc"` yields `echo`,
`a`, `b`, `c`. -/
theorem lsh_split_line_tokens (os : OS) (halloc : ∀ n w, os.alloc n w = true)
    (line : List Char) (w : World) :
    lsh_split_line os line w
        = Res.ret ((fields line).map Slot.tok ++ Slot.null ::
            List.replicate (token_capacity (fields line).length - (fields line).length - 1)
              Slot.wild) w
    ∧ argv ((fields line).map Slot.tok ++ Slot.null ::
            List.replicate (token_capacity (fields line).length - (fields line).length - 1)
              Slot.wild) = fields line
    ∧ fields line = ((List.splitOnP (fun c => decide (c ∈ LSH_TOK_DELIM)) (cstr line)).filter
        (fun run => decide (run ≠ []))).map String.mk
    ∧ (∀ t ∈ fields line, t ≠ "" ∧ ∀ c ∈ t.data, c ∉ LSH_TOK_DELIM ∧ c ≠ NUL)
    ∧ ((∀ c ∈ cstr line, c ∈ LSH_TOK_DELIM) → fields line = [])
    ∧ fields "echo  a   b\tc".toList = ["echo", "a", "b", "c"] := by
  refine ⟨?_, argv_block _ _, rfl, fields_tokens line.length line (le_refl _),
    fields_delimiters_only line, by decide⟩
  have h := split_loop_run os halloc w (fields line) (line.length + 1) []
    (strtok line LSH_TOK_DELIM).1 (strtok line LSH_TOK_DELIM).2 (strtok_inv line)
    (Nat.lt_succ_of_le (fields_length_le line.length line (le_refl _)))
  have h0 : List.replicate LSH_TOK_BUFSIZE Slot.wild = token_buffer [] := rfl
  have h1 : LSH_TOK_BUFSIZE = token_capacity ([] : List String).length := rfl
  simp only [List.nil_append] at h
  simp only [lsh_split_line, bind_run, malloc, halloc, if_true, h0]
  rw [show (0 : Nat) = ([] : List String).length from rfl]
  conv => lhs; arg 3; rw [h1]
  rw [h]

/-- C1 (witness): the line `"echo  a   b\tc"` in the sample environment. -/
theorem lsh_split_line_tokens_witness :
    lsh_split_line unix "echo  a   b\tc".toList (boot "")
        = Res.ret ((fields "echo  a   b\tc".toList).map Slot.tok ++ Slot.null ::
            List.replicate (token_capacity (fields "echo  a   b\tc".toList).length
              - (fields "echo  a   b\tc".toList).length - 1) Slot.wild) (boot "")
    ∧ argv ((fields "echo  a   b\tc".toList).map Slot.tok ++ Slot.null ::
            List.replicate (token_capacity (fields "echo  a   b\tc".toList).length
              - (fields "echo  a   b\tc".toList).length - 1) Slot.wild)
        = fields "echo  a   b\tc".toList
    ∧ fields "echo  a   b\tc".toList
        = ((List.splitOnP (fun c => decide (c ∈ LSH_TOK_DELIM))
            (cstr "echo  a   b\tc".toList)).filter (fun run => decide (run ≠ []))).map String.mk
    ∧ (∀ t ∈ fields "echo  a   b\tc".toList,
        t ≠ "" ∧ ∀ c ∈ t.data, c ∉ LSH_TOK_DELIM ∧ c ≠ NUL)
    ∧ ((∀ c ∈ cstr "echo  a   b\tc".toList, c ∈ LSH_TOK_DELIM)
        → fields "echo  a   b\tc".toList = [])
    ∧ fields "echo  a   b\tc".toList = ["echo", "a", "b", "c"] :=
  lsh_split_line_tokens unix (fun _ _ => rfl) "echo  a   b\tc".toList (boot "")

/-! ## The status `lsh_execute` returns -/

theorem returnsOne_pure : ReturnsOne (pure 1) := by
  intro w a w1 h
  injection h with h1 _
  exact h1.symm

theorem returnsOne_bind {α : Type} (m : Sh α) (f : α → Sh Int) (h : ∀ a, ReturnsOne (f a)) :
    ReturnsOne (m >>= f) := by
  intro w a w1 hr
  simp only [bind_run] at hr
  cases hm : m w with
  | ret x w2 => rw [hm] at hr; exact h x w2 a w1 hr
  | stop r w2 => rw [hm] at hr; cases hr

theorem returnsOne_cd (os : OS) (args : List Slot) : ReturnsOne (lsh_cd os args) := by
  unfold lsh_cd
  repeat (first | (apply returnsOne_bind; intro _) | exact returnsOne_pure | split | dsimp only)

theorem returnsOne_mv (os : OS) (args : List Slot) : ReturnsOne (lsh_mv os args) := by
  unfold lsh_mv
  repeat (first | (apply returnsOne_bind; intro _) | exact returnsOne_pure | split | dsimp only)

theorem returnsOne_cp (os : OS) (args : List Slot) : ReturnsOne (lsh_cp os args) := by
  unfold lsh_cp
  repeat (first | (apply returnsOne_bind; intro _) | exact returnsOne_pure | split | dsimp only)

theorem returnsOne_clear : ReturnsOne lsh_clear := by
  unfold lsh_clear
  repeat (first | (apply returnsOne_bind; intro _) | exact returnsOne_pure | split | dsimp only)

theorem returnsOne_rmdir (os : OS) (args : List Slot) : ReturnsOne (lsh_rmdir os args) := by
  unfold lsh_rmdir
  repeat (first | (apply returnsOne_bind; intro _) | exact returnsOne_pure | split | dsimp only)

theorem returnsOne_rm (os : OS) (args : List Slot) : ReturnsOne (lsh_rm os args) := by
  unfold lsh_rm
  repeat (first | (apply returnsOne_bind; intro _) | exact returnsOne_pure | split | dsimp only)

theorem returnsOne_touch (os : OS) (args : List Slot) : ReturnsOne (lsh_touch os args) := by
  unfold lsh_touch
  repeat (first | (apply returnsOne_bind; intro _) | exact returnsOne_pure | split | dsimp only)

theorem returnsOne_pwd (os : OS) : ReturnsOne (lsh_pwd os) := by
  unfold lsh_pwd
  repeat (first | (apply returnsOne_bind; intro _) | exact returnsOne_pure | split | dsimp only)

theorem returnsOne_echo (args : List Slot) : ReturnsOne (lsh_echo args) := by
  unfold lsh_echo
  repeat (first | (apply returnsOne_bind; intro _) | exact returnsOne_pure | split | dsimp only)

theorem returnsOne_ls (os : OS) (args : List Slot) : ReturnsOne (lsh_ls os args) := by
  unfold lsh_ls
  repeat (first | (apply returnsOne_bind; intro _) | exact returnsOne_pure | split | dsimp only)

theorem returnsOne_mkdir (os : OS) (args : List Slot) : ReturnsOne (lsh_mkdir os args) := by
  unfold lsh_mkdir
  repeat (first | (apply returnsOne_bind; intro _) | exact returnsOne_pure | split | dsimp only)

theorem returnsOne_help (args : List Slot) : ReturnsOne (lsh_help args) := by
  unfold lsh_help
  repeat (first | (apply returnsOne_bind; intro _) | exact returnsOne_pure | split | dsimp only)

theorem returnsOne_launch (os : OS) (args : List Slot) : ReturnsOne (lsh_launch os args) := by
  unfold lsh_launch
  repeat (first | (apply returnsOne_bind; intro _) | exact returnsOne_pure | split | dsimp only)

theorem lsh_execute_tok (os : OS) (t : String) (rest : List Slot) :
    lsh_execute os (Slot.tok t :: rest)
      = execute_loop os t (Slot.tok t :: rest) builtin_str (builtin_func os) := rfl

theorem returnsOne_execute_loop (os : OS) (name : String) (args : List Slot) :
    ∀ (names : List String) (funcs : List (List Slot → Sh Int)),
      (∀ entry ∈ List.zip names funcs, entry.1 = name → ReturnsOne (entry.2 args)) →
      ReturnsOne (execute_loop os name args names funcs)
  | [], _, _ => by
    rw [execute_loop]
    · exact returnsOne_launch os args
    · intro s names f funcs h
      cases h
  | _ :: _, [], _ => by
    rw [execute_loop]
    · exact returnsOne_launch os args
    · intro s names f funcs _ h
      cases h
  | s :: names, f :: funcs, h => by
    rw [execute_loop]
    split
    · next hs =>
      exact h (s, f) (by simp) ((strcmp_eq_zero name s).mp hs).symm
    · exact returnsOne_execute_loop os name args names funcs
        (fun entry he => h entry (by simp only [List.zip_cons_cons]; exact List.mem_cons_of_mem _ he))

/-- The status of `lsh_execute`, whenever it returns: 0 exactly when
`tokens[0]` is `exit`, and 1 otherwise. -/
theorem lsh_execute_status (os : OS) (args : List Slot) (w w1 : World) (v : Int)
    (h : lsh_execute os args w = Res.ret v w1) :
    (v = 0 ∧ args.head? = some (Slot.tok "exit"))
    ∨ (v = 1 ∧ args.head? ≠ some (Slot.tok "exit")) := by
  cases args with
  | nil => simp [lsh_execute, argAt] at h
  | cons a rest =>
    cases a with
    | wild => simp [lsh_execute, argAt] at h
    | null =>
      simp only [lsh_execute, argAt, List.get?, bind_run, pure_run] at h
      injection h with h1 _
      exact Or.inr ⟨h1.symm, by simp⟩
    | tok t =>
      rw [lsh_execute_tok] at h
      by_cases ht : t = "exit"
      · subst ht
        have h0 : execute_loop os "exit" (Slot.tok "exit" :: rest) builtin_str (builtin_func os)
            = lsh_exit (Slot.tok "exit" :: rest) := by
          simp [execute_loop, builtin_str, builtin_func, strcmp_eq_zero]
        rw [h0] at h
        injection h with h1 _
        exact Or.inl ⟨h1.symm, rfl⟩
      · right
        refine ⟨?_, by simpa using ht⟩
        refine returnsOne_execute_loop os t _ builtin_str (builtin_func os) ?_ w v w1 h
        intro entry hmem hname
        rw [builtin_table] at hmem
        simp only [List.mem_cons, List.mem_singleton, List.not_mem_nil, or_false] at hmem
        rcases hmem with e | e | e | e | e | e | e | e | e | e | e | e | e <;> subst e
        · exact returnsOne_cd os (Slot.tok t :: rest)
        · exact returnsOne_help (Slot.tok t :: rest)
        · exact absurd hname.symm ht
        · exact returnsOne_pwd os
        · exact returnsOne_echo (Slot.tok t :: rest)
        · exact returnsOne_ls os (Slot.tok t :: rest)
        · exact returnsOne_mkdir os (Slot.tok t :: rest)
        · exact returnsOne_touch os (Slot.tok t :: rest)
        · exact returnsOne_rm os (Slot.tok t :: rest)
        · exact returnsOne_rmdir os (Slot.tok t :: rest)
        · exact returnsOne_clear
        · exact returnsOne_cp os (Slot.tok t :: rest)
        · exact returnsOne_mv os (Slot.tok t :: rest)

/-- With `exit` as `tokens[0]`, `lsh_execute` returns 0, whatever follows. -/
theorem lsh_execute_exit (os : OS) (rest : List Slot) (w : World) :
    lsh_execute os (Slot.tok "exit" :: rest) w = Res.ret 0 w := by
  simp [lsh_execute, argAt, execute_loop, builtin_str, builtin_func, strcmp_eq_zero]
  rfl

/-- With no token, `lsh_execute` returns 1 and does nothing. -/
theorem lsh_execute_empty (os : OS) (rest : List Slot) (w : World) :
    lsh_execute os (Slot.null :: rest) w = Res.ret 1 w := by
  simp only [lsh_execute, argAt, List.get?, bind_run, pure_run]

/-- C3 (the code at the failing input): for the tokens `cp nosuchfile x` in a
world without files, `lsh_execute` does not return a status: the source cannot
be opened, `cpFrom` is `NULL`, and `fgetc(cpFrom)` is undefined behaviour. -/
theorem lsh_execute_cp_unopened_source_faults :
    (boot "").files "nosuchfile" = none
    ∧ (lsh_execute unix [Slot.tok "cp", Slot.tok "nosuchfile", Slot.tok "x", Slot.null]
        (boot "")).value = none
    ∧ (lsh_execute unix [Slot.tok "cp", Slot.tok "nosuchfile", Slot.tok "x", Slot.null]
        (boot "")).halt = some Halt.fault := by
  refine ⟨rfl, by decide, by decide⟩

end Lsh
